import Mathlib

/-!
Verification of the range-scan log fetcher in `src/App.tsx` of
chainwayxyz/clementine-explorer.

The embedding models `fetchResources` as a pure function: the two remote
queries (`client.getBlockNumber()` and `client.getLogs(...)`) are passed in
as explicit oracles (`Except Unit ℕ` for the height, and a function from a
window `[fromBlock, toBlock]` to `Except Unit (List LogEntry)` for the log
query), and the React state setters become explicit state threading.
Machine integers (`bigint` values, all non-negative in this program) are
modelled as `ℕ`; JavaScript `Number(...)` applied to a `bigint` is modelled
by `jsNumber` (rounding to 53 significand bits, ties to even); the float
arithmetic in the progress computation is modelled with exact rationals.
-/

/-- Embeds `interface DepositLog` (src/App.tsx lines 10-16): all fields
optional; hex strings modelled as `List Char`, uint256 values as `ℕ`. -/
structure DepositLog where
  wtxId : Option (List Char)
  txId : Option (List Char)
  recipient : Option (List Char)
  timestamp : Option ℕ
  depositId : Option ℕ
deriving DecidableEq

/-- Embeds `interface WithdrawalLog` (src/App.tsx lines 18-22). -/
structure WithdrawalLog where
  utxo : Option (List Char × List Char)
  index : Option ℕ
  timestamp : Option ℕ
deriving DecidableEq

/-- A decoded log entry returned by `client.getLogs`. The query at
src/App.tsx lines 105-114 matches exactly the three event signatures
`Deposit`, `Withdrawal` and `WithdrawFillerDeclared`, so every returned
entry carries one of these three `eventName` tags; the two uint256
arguments of `WithdrawFillerDeclared` are always present in a decoded
log. -/
inductive LogEntry where
  | deposit (args : DepositLog)
  | withdrawal (args : WithdrawalLog)
  | withdrawFillerDeclared (withdrawId withdrawFillerId : ℕ)
deriving DecidableEq

/-- Model of JavaScript `Number(n)` for a non-negative `bigint` `n`
(src/App.tsx lines 127-129): the value is converted to the nearest IEEE-754
double (53 significand bits, round half to even). Values below `2 ^ 53`
are exact; larger values are rounded to a multiple of
`2 ^ (log2 n - 52)`. Values below `2 ^ 1024` (in particular all uint256
values) never overflow, so the result is always a natural number. -/
def jsNumber (n : ℕ) : ℕ :=
  if n < 2 ^ 53 then n
  else
    let m := 2 ^ (Nat.log2 n - 52)
    let q := n / m
    let r := n % m
    if 2 * r < m then q * m
    else if m < 2 * r then (q + 1) * m
    else if q % 2 = 0 then q * m else (q + 1) * m

/-- Model of the JavaScript object-spread update
`{...prevLogs, [key]: value}` (src/App.tsx lines 125-130), as the pointwise
update of the lookup function of a `Record<number, number>`. -/
def upsert (m : ℕ → Option ℕ) (k v : ℕ) : ℕ → Option ℕ :=
  fun key => if key = k then some v else m key

/-- The three result sinks of the fetcher: the React state variables
`depositLogs`, `withdrawLogs` and `withdrawFillerLogs`
(src/App.tsx lines 53-57). The `Record<number, number>` is modelled by its
lookup function. -/
structure Sinks where
  depositLogs : List DepositLog
  withdrawLogs : List WithdrawalLog
  withdrawFillerLogs : ℕ → Option ℕ

/-- The initial sinks on page load: two empty arrays and an empty record. -/
def emptySinks : Sinks :=
  { depositLogs := [], withdrawLogs := [], withdrawFillerLogs := fun _ => none }

/-- Embeds the body of `logs.forEach((log) => ...)` (src/App.tsx lines
118-132): dispatch one log entry on its `eventName` into the matching
sink. -/
def processLog (st : Sinks) (log : LogEntry) : Sinks :=
  match log with
  | LogEntry.deposit args =>
      { st with depositLogs := st.depositLogs ++ [args] }
  | LogEntry.withdrawal args =>
      { st with withdrawLogs := st.withdrawLogs ++ [args] }
  | LogEntry.withdrawFillerDeclared withdrawId withdrawFillerId =>
      let m := upsert st.withdrawFillerLogs (jsNumber withdrawId)
        (jsNumber withdrawFillerId)
      { st with withdrawFillerLogs := m }

/-- The effect of one window's `try { getLogs ... forEach ... } catch`
block (src/App.tsx lines 104-138) on the three sinks: on a successful
query every returned entry is dispatched in order; on a failed query the
sinks are left unchanged. -/
def applyWindow (logsAt : ℕ → ℕ → Except Unit (List LogEntry))
    (st : Sinks) (fromBlock toBlock : ℕ) : Sinks :=
  match logsAt fromBlock toBlock with
  | Except.ok logs => logs.foldl processLog st
  | Except.error _ => st

/-- Whether a window's log query failed (took the `catch` branch at
src/App.tsx line 133). -/
def failedQuery (r : Except Unit (List LogEntry)) : Bool :=
  match r with
  | Except.ok _ => false
  | Except.error _ => true

/-- Model of `Number((Number(fromBlock) / Number(blockNumber)) * 100)`
(src/App.tsx line 143) with exact rational arithmetic; block heights are
far below `2 ^ 53`, where `Number` is exact. (For `blockNumber = 0`
JavaScript would produce `Infinity`; the rational model returns `0`, so
statements about the progress value assume a positive chain height.) -/
def progressValue (fromBlock blockNumber : ℕ) : ℚ :=
  ((fromBlock : ℚ) / (blockNumber : ℚ)) * 100

/-- The observable outcome of one `fetchResources()` call: the final
sinks, the sequence of `setProgress` emissions, the sequence of windows
whose query failed (the `console.error` calls at src/App.tsx lines
134-137), and the final `isLoaded` flag (`true` models `Completed`,
`false` models `Failed`). -/
structure ScanState where
  sinks : Sinks
  progressEvents : List ℚ
  windowErrors : List (ℕ × ℕ)
  isLoaded : Bool

/-- Embeds the `while (fromBlock <= blockNumber)` loop of `fetchResources`
(src/App.tsx lines 96-144): each iteration forms the window
`[fromBlock, min (fromBlock + 999) blockNumber]`, runs the guarded log
query, advances the cursor to `toBlock + 1` and emits a progress value. -/
def scanLoop (blockNumber : ℕ)
    (logsAt : ℕ → ℕ → Except Unit (List LogEntry))
    (fromBlock : ℕ) (st : ScanState) : ScanState :=
  if fromBlock ≤ blockNumber then
    let toBlock := min (fromBlock + 999) blockNumber
    let st' :=
      match logsAt fromBlock toBlock with
      | Except.ok logs =>
          { st with sinks := logs.foldl processLog st.sinks }
      | Except.error _ =>
          { st with windowErrors := st.windowErrors ++ [(fromBlock, toBlock)] }
    scanLoop blockNumber logsAt (toBlock + 1)
      { st' with progressEvents :=
          st'.progressEvents ++ [progressValue (toBlock + 1) blockNumber] }
  else st
termination_by blockNumber + 1 - fromBlock
decreasing_by omega

/-- Embeds `fetchResources` (src/App.tsx lines 61-150): `heightResult` is
the outcome of `client.getBlockNumber()`. On success the window loop runs
from block 0 over the given prior sinks and `setIsLoaded(true)` fires at
the end; if the height query throws, the outer `catch` leaves the sinks
untouched, emits nothing, and `isLoaded` stays `false`. -/
def fetchResources (heightResult : Except Unit ℕ)
    (logsAt : ℕ → ℕ → Except Unit (List LogEntry))
    (sinks0 : Sinks) : ScanState :=
  match heightResult with
  | Except.ok blockNumber =>
      let final := scanLoop blockNumber logsAt 0
        { sinks := sinks0, progressEvents := [], windowErrors := [],
          isLoaded := false }
      { final with isLoaded := true }
  | Except.error _ =>
      { sinks := sinks0, progressEvents := [], windowErrors := [],
        isLoaded := false }

/-- The sequence of `(fromBlock, toBlock)` windows the loop visits when
the cursor starts at `fromBlock` and the chain height is `blockNumber`:
each window is `[fromBlock, min (fromBlock + 999) blockNumber]` and the
next cursor is `toBlock + 1`, until the cursor passes the height. -/
def windowsFrom (blockNumber fromBlock : ℕ) : List (ℕ × ℕ) :=
  if fromBlock ≤ blockNumber then
    (fromBlock, min (fromBlock + 999) blockNumber) ::
      windowsFrom blockNumber (min (fromBlock + 999) blockNumber + 1)
  else []
termination_by blockNumber + 1 - fromBlock
decreasing_by omega

/-- The windows of a full scan, starting at block 0. -/
def windows (blockNumber : ℕ) : List (ℕ × ℕ) :=
  windowsFrom blockNumber 0

/-- The `Deposit` entries of a window's log list, in order. -/
def depositsOf (L : List LogEntry) : List DepositLog :=
  L.filterMap (fun e =>
    match e with
    | LogEntry.deposit args => some args
    | _ => none)

/-- The `Withdrawal` entries of a window's log list, in order. -/
def withdrawalsOf (L : List LogEntry) : List WithdrawalLog :=
  L.filterMap (fun e =>
    match e with
    | LogEntry.withdrawal args => some args
    | _ => none)

/-- The `(withdrawId, withdrawFillerId)` pairs of the
`WithdrawFillerDeclared` entries of a window's log list, in order. -/
def fillersOf (L : List LogEntry) : List (ℕ × ℕ) :=
  L.filterMap (fun e =>
    match e with
    | LogEntry.withdrawFillerDeclared w f => some (w, f)
    | _ => none)

/-- Upsert a list of `(withdrawId, withdrawFillerId)` pairs into the
filler mapping in order, keying each by `jsNumber` of the id. -/
def applyFillers (ps : List (ℕ × ℕ)) (m : ℕ → Option ℕ) : ℕ → Option ℕ :=
  ps.foldl (fun acc p => upsert acc (jsNumber p.1) (jsNumber p.2)) m

/-- Modelled from the spec sentence for the filler mapping, for comparison
with the mapping the code builds: the value stored under key `k` is the
`withdrawFillerId` of the LAST `WithdrawFillerDeclared` entry whose
converted `withdrawId` equals `k` (later event wins), or nothing if no
such entry occurs. -/
def lastFillerSpec (k : ℕ) (L : List LogEntry) : Option ℕ :=
  L.foldl (fun acc e =>
    match e with
    | LogEntry.withdrawFillerDeclared w f =>
        if jsNumber w = k then some (jsNumber f) else acc
    | _ => acc) none

/-- A prior sink state holding one filler assignment `5 ↦ 1`, as left by
an earlier completed scan; used to exhibit a later scan overwriting it. -/
def sinksWithFiller : Sinks :=
  { depositLogs := [], withdrawLogs := [],
    withdrawFillerLogs := fun k => if k = 5 then some 1 else none }

/-- Tests whether a character is a hexadecimal digit; used only in
hypotheses delimiting well-formed hex-string inputs of `reverseHex`. -/
def hexDigit (c : Char) : Bool :=
  c.isDigit || (decide ('a' ≤ c) && decide (c ≤ 'f')) ||
    (decide ('A' ≤ c) && decide (c ≤ 'F'))

/-- Embeds the `cleanedHex` computation of `reverseHex` (src/App.tsx
lines 31-33): remove the leading characters `0x` when present. -/
def cleanedHex (s : List Char) : List Char :=
  match s with
  | '0' :: 'x' :: rest => rest
  | _ => s

/-- Embeds `cleanedHex.match(/.{1,2}/g)` (src/App.tsx line 38): split a
string into consecutive chunks of two characters, the last chunk holding
a single character when the length is odd; the empty string yields no
chunks (the regex returns `null`, and the code falls back to `""`). -/
def chunkPairs : List Char → List (List Char)
  | [] => []
  | [c] => [[c]]
  | a :: b :: rest => [a, b] :: chunkPairs rest

/-- Embeds `reverseHex` (src/App.tsx lines 29-43): strip a leading `0x`,
chunk into pairs, reverse the chunk list and join. -/
def reverseHex (s : List Char) : List Char :=
  ((chunkPairs (cleanedHex s)).reverse).flatten

/-- A log-query oracle whose every window succeeds with no entries. -/
def noLogs : ℕ → ℕ → Except Unit (List LogEntry) := fun _ _ => Except.ok []

/-- A concrete deposit entry used to instantiate dispatch statements. -/
def demoDeposit : DepositLog :=
  { wtxId := none, txId := none, recipient := none, timestamp := none,
    depositId := some 1 }

/-- A concrete withdrawal entry used to instantiate dispatch statements. -/
def demoWithdrawal : WithdrawalLog :=
  { utxo := none, index := none, timestamp := none }

/-- A concrete window response holding one entry of each kind. -/
def demoLogs : List LogEntry :=
  [LogEntry.deposit demoDeposit, LogEntry.withdrawal demoWithdrawal,
    LogEntry.withdrawFillerDeclared 5 7]

/-- A log-query oracle whose every window succeeds with `demoLogs`. -/
def demoQuery : ℕ → ℕ → Except Unit (List LogEntry) := fun _ _ =>
  Except.ok demoLogs

/-- A log-query oracle returning one `WithdrawFillerDeclared 5 2` entry,
used to exhibit a scan overwriting the prior assignment `5 ↦ 1`. -/
def overwriteQuery : ℕ → ℕ → Except Unit (List LogEntry) := fun _ _ =>
  Except.ok [LogEntry.withdrawFillerDeclared 5 2]

/-! ## Helper lemmas about the window sequence -/

theorem windowsFrom_eq_nil_iff (H f : ℕ) : windowsFrom H f = [] ↔ H < f := by
  rw [windowsFrom]
  by_cases h : f ≤ H
  · simp [if_pos h]
    omega
  · simp [if_neg h]
    omega

theorem mem_windowsFrom (H f : ℕ) (w : ℕ × ℕ) (hw : w ∈ windowsFrom H f) :
    f ≤ w.1 ∧ w.1 ≤ H ∧ w.2 = min (w.1 + 999) H := by
  rw [windowsFrom] at hw
  by_cases h : f ≤ H
  · rw [if_pos h] at hw
    rcases List.mem_cons.mp hw with hw | hw
    · subst hw
      exact ⟨le_refl _, h, rfl⟩
    · have ih := mem_windowsFrom H (min (f + 999) H + 1) w hw
      refine ⟨?_, ih.2.1, ih.2.2⟩
      omega
  · rw [if_neg h] at hw
    simp at hw
termination_by H + 1 - f
decreasing_by omega

theorem windowsFrom_head (H f : ℕ) (h : f ≤ H) :
    (windowsFrom H f).head? = some (f, min (f + 999) H) := by
  rw [windowsFrom, if_pos h]
  rfl

theorem windowsFrom_chain (H f : ℕ) :
    List.Chain' (fun a b : ℕ × ℕ => a.2 + 1 = b.1) (windowsFrom H f) := by
  rw [windowsFrom]
  by_cases h : f ≤ H
  · rw [if_pos h]
    rw [List.chain'_cons']
    constructor
    · intro y hy
      by_cases h2 : min (f + 999) H + 1 ≤ H
      · rw [windowsFrom_head H _ h2] at hy
        simp at hy
        subst hy
        rfl
      · rw [(windowsFrom_eq_nil_iff H _).mpr (by omega)] at hy
        simp at hy
    · exact windowsFrom_chain H (min (f + 999) H + 1)
  · rw [if_neg h]
    exact List.chain'_nil
termination_by H + 1 - f
decreasing_by omega

theorem windowsFrom_chain_snd (H f : ℕ) :
    List.Chain' (fun a b : ℕ × ℕ => a.2 < b.2) (windowsFrom H f) := by
  rw [windowsFrom]
  by_cases h : f ≤ H
  · rw [if_pos h]
    rw [List.chain'_cons']
    constructor
    · intro y hy
      by_cases h2 : min (f + 999) H + 1 ≤ H
      · rw [windowsFrom_head H _ h2] at hy
        simp at hy
        subst hy
        simp
        omega
      · rw [(windowsFrom_eq_nil_iff H _).mpr (by omega)] at hy
        simp at hy
    · exact windowsFrom_chain_snd H (min (f + 999) H + 1)
  · rw [if_neg h]
    exact List.chain'_nil
termination_by H + 1 - f
decreasing_by omega

theorem windowsFrom_getLast (H f : ℕ) (h : f ≤ H) :
    ((windowsFrom H f).getLast?).map Prod.snd = some H := by
  rw [windowsFrom, if_pos h]
  by_cases h2 : min (f + 999) H + 1 ≤ H
  · have ih := windowsFrom_getLast H (min (f + 999) H + 1) h2
    cases hlist : windowsFrom H (min (f + 999) H + 1) with
    | nil =>
        rw [windowsFrom_eq_nil_iff] at hlist
        omega
    | cons x xs =>
        rw [hlist] at ih
        rw [List.getLast?_cons_cons]
        exact ih
  · rw [(windowsFrom_eq_nil_iff H _).mpr (by omega)]
    simp
    omega
termination_by H + 1 - f
decreasing_by omega

theorem windowsFrom_length (H f : ℕ) (h : f ≤ H) :
    (windowsFrom H f).length = (H + 1 - f + 999) / 1000 := by
  rw [windowsFrom, if_pos h]
  by_cases h2 : min (f + 999) H + 1 ≤ H
  · have ih := windowsFrom_length H (min (f + 999) H + 1) h2
    simp only [List.length_cons, ih]
    have hmin : min (f + 999) H = f + 999 := by omega
    rw [hmin] at h2 ⊢
    have hsub : H + 1 - (f + 999 + 1) + 999 = H + 1 - f - 1 := by omega
    rw [hsub]
    have h1000 : H + 1 - f = (H + 1 - f - 1000) + 1000 := by omega
    rw [show H + 1 - f + 999 = (H + 1 - f - 1) + 1000 by omega]
    rw [Nat.add_div_right _ (by norm_num)]
  · rw [(windowsFrom_eq_nil_iff H _).mpr (by omega)]
    simp only [List.length_cons, List.length_nil]
    have : H + 1 - f ≤ 1000 := by omega
    have h1 : 1 ≤ H + 1 - f := by omega
    omega
termination_by H + 1 - f
decreasing_by omega

theorem windowsFrom_dropLast (H f : ℕ) (w : ℕ × ℕ)
    (hw : w ∈ (windowsFrom H f).dropLast) : w.2 + 1 ≤ H := by
  rw [windowsFrom] at hw
  by_cases h : f ≤ H
  · rw [if_pos h] at hw
    by_cases h2 : min (f + 999) H + 1 ≤ H
    · have hne : windowsFrom H (min (f + 999) H + 1) ≠ [] := by
        intro hnil
        rw [windowsFrom_eq_nil_iff] at hnil
        omega
      rw [List.dropLast_cons_of_ne_nil hne] at hw
      rcases List.mem_cons.mp hw with hw | hw
      · subst hw
        simp
        omega
      · exact windowsFrom_dropLast H (min (f + 999) H + 1) w hw
    · rw [(windowsFrom_eq_nil_iff H _).mpr (by omega)] at hw
      simp at hw
  · rw [if_neg h] at hw
    simp at hw
termination_by H + 1 - f
decreasing_by omega

/-! ## Bridging the loop to the window sequence -/

theorem scanLoop_eq (H : ℕ) (logsAt : ℕ → ℕ → Except Unit (List LogEntry))
    (f : ℕ) (st : ScanState) :
    scanLoop H logsAt f st =
      { sinks := (windowsFrom H f).foldl
          (fun s w => applyWindow logsAt s w.1 w.2) st.sinks,
        progressEvents := st.progressEvents ++
          (windowsFrom H f).map (fun w => progressValue (w.2 + 1) H),
        windowErrors := st.windowErrors ++
          (windowsFrom H f).filter (fun w => failedQuery (logsAt w.1 w.2)),
        isLoaded := st.isLoaded } := by
  rw [scanLoop, windowsFrom]
  by_cases h : f ≤ H
  · simp only [if_pos h]
    rw [scanLoop_eq]
    cases hq : logsAt f (min (f + 999) H) with
    | ok logs =>
        simp [applyWindow, failedQuery, hq]
    | error e =>
        simp [applyWindow, failedQuery, hq]
  · simp [if_neg h]
termination_by H + 1 - f
decreasing_by omega

theorem fetchResources_ok (H : ℕ)
    (logsAt : ℕ → ℕ → Except Unit (List LogEntry)) (sinks0 : Sinks) :
    fetchResources (Except.ok H) logsAt sinks0 =
      { sinks := (windows H).foldl
          (fun s w => applyWindow logsAt s w.1 w.2) sinks0,
        progressEvents := (windows H).map (fun w => progressValue (w.2 + 1) H),
        windowErrors := (windows H).filter (fun w => failedQuery (logsAt w.1 w.2)),
        isLoaded := true } := by
  rw [fetchResources]
  rw [scanLoop_eq]
  rfl

/-! ## Dispatch lemmas for a window's log list -/

theorem foldl_processLog_deposits (L : List LogEntry) (s : Sinks) :
    (L.foldl processLog s).depositLogs = s.depositLogs ++ depositsOf L := by
  induction L generalizing s with
  | nil => simp [depositsOf]
  | cons e L ih =>
      cases e with
      | deposit args =>
          simp [processLog, ih, depositsOf, List.filterMap_cons]
      | withdrawal args =>
          simp [processLog, ih, depositsOf, List.filterMap_cons]
      | withdrawFillerDeclared w fid =>
          simp [processLog, ih, depositsOf, List.filterMap_cons]

theorem foldl_processLog_withdrawals (L : List LogEntry) (s : Sinks) :
    (L.foldl processLog s).withdrawLogs = s.withdrawLogs ++ withdrawalsOf L := by
  induction L generalizing s with
  | nil => simp [withdrawalsOf]
  | cons e L ih =>
      cases e with
      | deposit args =>
          simp [processLog, ih, withdrawalsOf, List.filterMap_cons]
      | withdrawal args =>
          simp [processLog, ih, withdrawalsOf, List.filterMap_cons]
      | withdrawFillerDeclared w fid =>
          simp [processLog, ih, withdrawalsOf, List.filterMap_cons]

theorem foldl_processLog_fillers (L : List LogEntry) (s : Sinks) :
    (L.foldl processLog s).withdrawFillerLogs =
      applyFillers (fillersOf L) s.withdrawFillerLogs := by
  induction L generalizing s with
  | nil => simp [fillersOf, applyFillers]
  | cons e L ih =>
      cases e with
      | deposit args =>
          simp [processLog, ih, fillersOf, applyFillers, List.filterMap_cons]
      | withdrawal args =>
          simp [processLog, ih, fillersOf, applyFillers, List.filterMap_cons]
      | withdrawFillerDeclared w fid =>
          simp [processLog, ih, fillersOf, applyFillers, List.filterMap_cons]

theorem kinds_partition (L : List LogEntry) :
    (depositsOf L).length + (withdrawalsOf L).length +
      (fillersOf L).length = L.length := by
  induction L with
  | nil => simp [depositsOf, withdrawalsOf, fillersOf]
  | cons e L ih =>
      cases e with
      | deposit args =>
          simp only [depositsOf, withdrawalsOf, fillersOf,
            List.filterMap_cons, List.length_cons] at ih ⊢
          omega
      | withdrawal args =>
          simp only [depositsOf, withdrawalsOf, fillersOf,
            List.filterMap_cons, List.length_cons] at ih ⊢
          omega
      | withdrawFillerDeclared w fid =>
          simp only [depositsOf, withdrawalsOf, fillersOf,
            List.filterMap_cons, List.length_cons] at ih ⊢
          omega

/-! ## Progress-value helper lemmas -/

theorem progressValue_nonneg (f H : ℕ) : 0 ≤ progressValue f H := by
  unfold progressValue
  positivity

theorem progressValue_mono (H : ℕ) {a b : ℕ} (h : a ≤ b) :
    progressValue a H ≤ progressValue b H := by
  unfold progressValue
  by_cases hH : H = 0
  · simp [hH]
  · have hH0 : (0 : ℚ) < (H : ℚ) := by
      have : 0 < H := Nat.pos_of_ne_zero hH
      exact_mod_cast this
    have hab : (a : ℚ) ≤ (b : ℚ) := by exact_mod_cast h
    have := (div_le_div_iff_of_pos_right hH0).mpr hab
    exact mul_le_mul_of_nonneg_right this (by norm_num)

theorem progressValue_le_100 (f H : ℕ) (h : f ≤ H) (hH : 1 ≤ H) :
    progressValue f H ≤ 100 := by
  unfold progressValue
  have hH0 : (0 : ℚ) < (H : ℚ) := by exact_mod_cast hH
  have hf : (f : ℚ) ≤ (H : ℚ) := by exact_mod_cast h
  have h1 : (f : ℚ) / (H : ℚ) ≤ 1 := div_le_one_of_le₀ hf (le_of_lt hH0)
  calc (f : ℚ) / (H : ℚ) * 100 ≤ 1 * 100 :=
        mul_le_mul_of_nonneg_right h1 (by norm_num)
    _ = 100 := by norm_num

theorem progressValue_final_gt (H : ℕ) (hH : 1 ≤ H) :
    100 < progressValue (H + 1) H := by
  unfold progressValue
  have hH0 : (0 : ℚ) < (H : ℚ) := by exact_mod_cast hH
  have h1 : (1 : ℚ) < ((H : ℕ) + 1 : ℕ) / (H : ℚ) := by
    rw [one_lt_div hH0]
    push_cast
    linarith
  calc (100 : ℚ) = 1 * 100 := by norm_num
    _ < (((H : ℕ) + 1 : ℕ) : ℚ) / (H : ℚ) * 100 := by
        exact mul_lt_mul_of_pos_right h1 (by norm_num)

/-! ## Concrete evaluation helpers -/

theorem windows_2500 : windows 2500 = [(0, 999), (1000, 1999), (2000, 2500)] := by
  simp [windows, windowsFrom]

theorem events_2500 :
    (fetchResources (Except.ok 2500) noLogs emptySinks).progressEvents =
      [40, 80, 2501 / 25] := by
  rw [fetchResources_ok, windows_2500]
  simp [progressValue]
  norm_num

/-! ## Claim theorems -/

/-- Claim C2: for every chain height `H ≥ 0` the scan's window sequence
starts at cursor 0, each window is `[from, min (from + 999) H]` (hence
`from ≤ to` and the window spans at most 1000 blocks), consecutive windows
are contiguous and non-overlapping (`to + 1` is the next `from`), and the
final window's upper bound is exactly `H`. -/
theorem scan_windows_shape (H : ℕ) :
    ((windows H).head?).map Prod.fst = some 0 ∧
    (∀ w ∈ windows H,
      w.2 = min (w.1 + 999) H ∧ w.1 ≤ w.2 ∧ w.2 + 1 - w.1 ≤ 1000) ∧
    List.Chain' (fun a b : ℕ × ℕ => a.2 + 1 = b.1) (windows H) ∧
    ((windows H).getLast?).map Prod.snd = some H := by
  refine ⟨?_, ?_, ?_, ?_⟩
  · rw [windows, windowsFrom_head H 0 (Nat.zero_le H)]
    rfl
  · intro w hw
    have h := mem_windowsFrom H 0 w hw
    refine ⟨h.2.2, ?_, ?_⟩ <;> omega
  · exact windowsFrom_chain H 0
  · exact windowsFrom_getLast H 0 (Nat.zero_le H)

/-- Claim C7: for every chain height `H` the number of windows the scan
performs — equal to the number of progress emissions (one per log query)
— is exactly the ceiling of `(H + 1) / 1000`. -/
theorem scan_window_count (H : ℕ)
    (logsAt : ℕ → ℕ → Except Unit (List LogEntry)) (sinks0 : Sinks) :
    (windows H).length = (H + 1) ⌈/⌉ 1000 ∧
    (fetchResources (Except.ok H) logsAt sinks0).progressEvents.length =
      (H + 1) ⌈/⌉ 1000 := by
  have hlen : (windows H).length = (H + 1) ⌈/⌉ 1000 := by
    rw [Nat.ceilDiv_eq_add_pred_div, windows, windowsFrom_length H 0 (Nat.zero_le H)]
    omega
  refine ⟨hlen, ?_⟩
  rw [fetchResources_ok]
  simpa using hlen

/-- Claim C6: if the chain-height query itself fails, the whole scan
aborts as `Failed` (`isLoaded` stays `false`), zero progress events are
emitted, no window failure is recorded, and the sinks are untouched. -/
theorem scan_height_failure (logsAt : ℕ → ℕ → Except Unit (List LogEntry))
    (sinks0 : Sinks) :
    (fetchResources (Except.error ()) logsAt sinks0).isLoaded = false ∧
    (fetchResources (Except.error ()) logsAt sinks0).progressEvents = [] ∧
    (fetchResources (Except.error ()) logsAt sinks0).windowErrors = [] ∧
    (fetchResources (Except.error ()) logsAt sinks0).sinks = sinks0 :=
  ⟨rfl, rfl, rfl, rfl⟩

/-- Claim C5: window failures are local: a scan over any oracle completes
(`isLoaded = true`) regardless of how many windows failed; the recorded
failures are exactly the windows whose query failed; every window is still
applied in order (the scan continues past failures, one query per window,
so no retry and no abort); and a failed window leaves the sinks
unchanged. -/
theorem scan_window_failure_local (H : ℕ)
    (logsAt : ℕ → ℕ → Except Unit (List LogEntry)) (sinks0 : Sinks) :
    (fetchResources (Except.ok H) logsAt sinks0).isLoaded = true ∧
    (fetchResources (Except.ok H) logsAt sinks0).windowErrors =
      (windows H).filter (fun w => failedQuery (logsAt w.1 w.2)) ∧
    (fetchResources (Except.ok H) logsAt sinks0).sinks =
      (windows H).foldl (fun s w => applyWindow logsAt s w.1 w.2) sinks0 ∧
    (∀ s f t, logsAt f t = Except.error () → applyWindow logsAt s f t = s) ∧
    (fetchResources (Except.ok H) logsAt sinks0).progressEvents.length =
      (windows H).length := by
  rw [fetchResources_ok]
  refine ⟨rfl, rfl, rfl, ?_, by simp⟩
  intro s f t hft
  unfold applyWindow
  rw [hft]

/-- Claim C1: on a successful window response every returned entry is
dispatched into exactly one of the three sinks by its event kind — the
`Deposit` entries are appended in order to the deposit collection, the
`Withdrawal` entries to the withdrawal collection, and the
`WithdrawFillerDeclared` entries are upserted in order into the filler
mapping — and the three kind classes partition the window's entries, so
no entry is dropped or duplicated. -/
theorem window_dispatch (logsAt : ℕ → ℕ → Except Unit (List LogEntry))
    (s : Sinks) (f t : ℕ) (L : List LogEntry)
    (h : logsAt f t = Except.ok L) :
    (applyWindow logsAt s f t).depositLogs = s.depositLogs ++ depositsOf L ∧
    (applyWindow logsAt s f t).withdrawLogs =
      s.withdrawLogs ++ withdrawalsOf L ∧
    (applyWindow logsAt s f t).withdrawFillerLogs =
      applyFillers (fillersOf L) s.withdrawFillerLogs ∧
    (depositsOf L).length + (withdrawalsOf L).length +
      (fillersOf L).length = L.length := by
  unfold applyWindow
  rw [h]
  exact ⟨foldl_processLog_deposits L s, foldl_processLog_withdrawals L s,
    foldl_processLog_fillers L s, kinds_partition L⟩

/-- Witness for C1 at the window `[0, 999]` of `demoQuery`, which returns
one entry of each kind. -/
theorem window_dispatch_witness :
    demoQuery 0 999 = Except.ok demoLogs ∧
    ((applyWindow demoQuery emptySinks 0 999).depositLogs =
      emptySinks.depositLogs ++ depositsOf demoLogs ∧
    (applyWindow demoQuery emptySinks 0 999).withdrawLogs =
      emptySinks.withdrawLogs ++ withdrawalsOf demoLogs ∧
    (applyWindow demoQuery emptySinks 0 999).withdrawFillerLogs =
      applyFillers (fillersOf demoLogs) emptySinks.withdrawFillerLogs ∧
    (depositsOf demoLogs).length + (withdrawalsOf demoLogs).length +
      (fillersOf demoLogs).length = demoLogs.length) :=
  ⟨rfl, window_dispatch demoQuery emptySinks 0 999 demoLogs rfl⟩

/-- The final progress emission corresponds to the final window, whose
upper bound is the chain height, so its value is `progressValue (H+1) H`. -/
theorem windows_getLast_progress (H : ℕ) :
    Option.map (fun w : ℕ × ℕ => progressValue (w.2 + 1) H)
      (windowsFrom H 0).getLast? = some (progressValue (H + 1) H) := by
  have h := windowsFrom_getLast H 0 (Nat.zero_le H)
  cases hlast : (windowsFrom H 0).getLast? with
  | none =>
      rw [hlast] at h
      simp at h
  | some p =>
      rw [hlast] at h
      simp at h
      simp [h]

/-- Claim C3 (amended): for every chain height `H ≥ 1`, after every window
the emitted progress equals `(from / H) * 100` where `from` is the cursor
after advancing past that window (`to + 1`); every emitted value lies in
`[0, ((H + 1) / H) * 100]`; every value except the final one lies in
`[0, 100]`; but the final value equals `((H + 1) / H) * 100`, which is
strictly greater than 100 — so the emitted values do NOT all lie in
`[0, 100]` as originally claimed. -/
theorem scan_progress_values (H : ℕ) (hH : 1 ≤ H)
    (logsAt : ℕ → ℕ → Except Unit (List LogEntry)) (sinks0 : Sinks) :
    (fetchResources (Except.ok H) logsAt sinks0).progressEvents =
      (windows H).map (fun w => progressValue (w.2 + 1) H) ∧
    (∀ q ∈ (fetchResources (Except.ok H) logsAt sinks0).progressEvents,
      0 ≤ q ∧ q ≤ progressValue (H + 1) H) ∧
    (∀ q ∈ ((fetchResources (Except.ok H) logsAt sinks0).progressEvents).dropLast,
      q ≤ 100) ∧
    ((fetchResources (Except.ok H) logsAt sinks0).progressEvents).getLast? =
      some (progressValue (H + 1) H) ∧
    100 < progressValue (H + 1) H := by
  have hev : (fetchResources (Except.ok H) logsAt sinks0).progressEvents =
      (windows H).map (fun w => progressValue (w.2 + 1) H) := by
    rw [fetchResources_ok]
  refine ⟨hev, ?_, ?_, ?_, progressValue_final_gt H hH⟩
  · intro q hq
    rw [hev] at hq
    rcases List.mem_map.mp hq with ⟨w, hw, rfl⟩
    have hmem := mem_windowsFrom H 0 w hw
    refine ⟨progressValue_nonneg _ _, progressValue_mono H ?_⟩
    omega
  · intro q hq
    rw [hev, ← List.map_dropLast] at hq
    rcases List.mem_map.mp hq with ⟨w, hw, rfl⟩
    have hle := windowsFrom_dropLast H 0 w hw
    exact progressValue_le_100 _ _ hle hH
  · rw [hev, List.getLast?_map, windows]
    exact windows_getLast_progress H

/-- Witness for C3 at `H = 2`: a single window `[0, 2]`, after which the
cursor is 3 and the emitted progress is `(3 / 2) * 100 = 150 > 100`. -/
theorem scan_progress_values_witness :
    1 ≤ 2 ∧
    ((fetchResources (Except.ok 2) noLogs emptySinks).progressEvents =
      (windows 2).map (fun w => progressValue (w.2 + 1) 2) ∧
    (∀ q ∈ (fetchResources (Except.ok 2) noLogs emptySinks).progressEvents,
      0 ≤ q ∧ q ≤ progressValue (2 + 1) 2) ∧
    (∀ q ∈ ((fetchResources (Except.ok 2) noLogs emptySinks).progressEvents).dropLast,
      q ≤ 100) ∧
    ((fetchResources (Except.ok 2) noLogs emptySinks).progressEvents).getLast? =
      some (progressValue (2 + 1) 2) ∧
    100 < progressValue (2 + 1) 2) :=
  ⟨by norm_num, scan_progress_values 2 (by norm_num) noLogs emptySinks⟩

/-- Counterexample to claim C3 as stated: at chain height 2500 (all window
queries succeeding) the emitted progress values are `40`, `80` and
`2501/25 = 100.04`; the final one is an emitted progress value that does
not lie in the interval `[0, 100]`. -/
theorem scan_progress_out_of_range :
    (fetchResources (Except.ok 2500) noLogs emptySinks).progressEvents =
      [40, 80, 2501 / 25] ∧
    (2501 / 25 : ℚ) ∈
      (fetchResources (Except.ok 2500) noLogs emptySinks).progressEvents ∧
    ¬ (2501 / 25 : ℚ) ≤ 100 := by
  refine ⟨events_2500, ?_, by norm_num⟩
  rw [events_2500]
  simp

/-- Claim C4 (amended): within a single scan over a chain of height
`H ≥ 1` the emitted progress sequence is monotonically non-decreasing,
but the final value at successful completion is `((H + 1) / H) * 100`,
which is never exactly 100; in the `H = 2500` scenario the three values
are `40`, `80` and `100.04`. -/
theorem scan_progress_monotone (H : ℕ) (hH : 1 ≤ H)
    (logsAt : ℕ → ℕ → Except Unit (List LogEntry)) (sinks0 : Sinks) :
    List.Chain' (· ≤ ·)
      (fetchResources (Except.ok H) logsAt sinks0).progressEvents ∧
    ((fetchResources (Except.ok H) logsAt sinks0).progressEvents).getLast? =
      some (progressValue (H + 1) H) ∧
    progressValue (H + 1) H ≠ 100 := by
  refine ⟨?_, ?_, ?_⟩
  · rw [fetchResources_ok]
    simp only
    rw [List.chain'_map]
    refine List.Chain'.imp ?_ (windowsFrom_chain_snd H 0)
    intro a b hab
    exact progressValue_mono H (by omega)
  · rw [fetchResources_ok]
    simp only
    rw [List.getLast?_map, windows]
    exact windows_getLast_progress H
  · have := progressValue_final_gt H hH
    intro heq
    rw [heq] at this
    exact lt_irrefl _ this

/-- Witness for C4 at `H = 2`: the scan emits the single value 150, a
monotone sequence whose last element is `(3 / 2) * 100 = 150 ≠ 100`. -/
theorem scan_progress_monotone_witness :
    1 ≤ 2 ∧
    (List.Chain' (· ≤ ·)
      (fetchResources (Except.ok 2) noLogs emptySinks).progressEvents ∧
    ((fetchResources (Except.ok 2) noLogs emptySinks).progressEvents).getLast? =
      some (progressValue (2 + 1) 2) ∧
    progressValue (2 + 1) 2 ≠ 100) :=
  ⟨by norm_num, scan_progress_monotone 2 (by norm_num) noLogs emptySinks⟩

/-- Counterexample to claim C4 as stated: at chain height 2500 the final
emitted progress value at successful completion is `2501/25 = 100.04`,
not exactly 100. -/
theorem scan_final_progress_ne_100 :
    ((fetchResources (Except.ok 2500) noLogs emptySinks).progressEvents).getLast? =
      some (2501 / 25) ∧
    (2501 / 25 : ℚ) ≠ 100 := by
  rw [events_2500]
  norm_num

/-! ## jsNumber lemmas and the filler mapping (claim C8) -/

theorem jsNumber_small {n : ℕ} (h : n < 2 ^ 53) : jsNumber n = n := by
  unfold jsNumber
  rw [if_pos h]

theorem log2_two_pow_53 : Nat.log2 (2 ^ 53) = 53 := by
  rw [Nat.log2_eq_log_two]
  exact Nat.log_pow (by norm_num) 53

theorem log2_two_pow_53_add_one : Nat.log2 (2 ^ 53 + 1) = 53 := by
  rw [Nat.log2_eq_log_two]
  exact Nat.log_eq_of_pow_le_of_lt_pow (by norm_num) (by norm_num)

theorem jsNumber_two_pow_53 : jsNumber (2 ^ 53) = 2 ^ 53 := by
  unfold jsNumber
  rw [if_neg (by norm_num)]
  simp only [log2_two_pow_53]
  norm_num

theorem jsNumber_two_pow_53_add_one : jsNumber (2 ^ 53 + 1) = 2 ^ 53 := by
  unfold jsNumber
  rw [if_neg (by norm_num)]
  simp only [log2_two_pow_53_add_one]
  norm_num

/-- Refinement of the filler mapping against the spec's later-event-wins
description: after dispatching any log list, the value stored under key
`k` is the converted `withdrawFillerId` of the last
`WithdrawFillerDeclared` entry whose converted `withdrawId` is `k`, and
the prior mapping's value if there is none. -/
theorem foldl_processLog_lookup (L : List LogEntry) (s : Sinks) (k : ℕ) :
    (L.foldl processLog s).withdrawFillerLogs k =
      match lastFillerSpec k L with
      | some v => some v
      | none => s.withdrawFillerLogs k := by
  induction L using List.reverseRecOn with
  | nil => simp [lastFillerSpec]
  | append_singleton L e ih =>
      cases e with
      | deposit args =>
          simp [List.foldl_append, processLog, lastFillerSpec, ih]
      | withdrawal args =>
          simp [List.foldl_append, processLog, lastFillerSpec, ih]
      | withdrawFillerDeclared w fid =>
          by_cases hk : k = jsNumber w
          · simp [List.foldl_append, processLog, lastFillerSpec, upsert, hk]
          · have hk2 : (jsNumber w = k) = False := by
              simp
              omega
            simp [List.foldl_append, processLog, lastFillerSpec, upsert, hk,
              hk2, ih]

/-- Claim C8 (amended): the filler collection is a mapping keyed by the
`Number`-converted `withdrawId` in which the last event with a given key
determines the stored value (later event wins); and two
`WithdrawFillerDeclared` events whose distinct `withdrawId`s are below
`2 ^ 53` (where `Number` conversion is injective) are stored under
distinct keys, each retaining its own `fillerId`. Distinct 256-bit ids at
or above `2 ^ 53` can collide after conversion (see
`filler_key_collision`), so the original claim's distinct-keys part does
not hold for all distinct 256-bit ids. -/
theorem filler_map_semantics (s : Sinks) (L : List LogEntry) (k : ℕ)
    (w1 f1 w2 f2 : ℕ) (h1 : w1 < 2 ^ 53) (h2 : w2 < 2 ^ 53) (hne : w1 ≠ w2) :
    ((L.foldl processLog s).withdrawFillerLogs k =
      match lastFillerSpec k L with
      | some v => some v
      | none => s.withdrawFillerLogs k) ∧
    jsNumber w1 ≠ jsNumber w2 ∧
    Sinks.withdrawFillerLogs
      ([LogEntry.withdrawFillerDeclared w1 f1,
        LogEntry.withdrawFillerDeclared w2 f2].foldl processLog s)
      (jsNumber w1) = some (jsNumber f1) ∧
    Sinks.withdrawFillerLogs
      ([LogEntry.withdrawFillerDeclared w1 f1,
        LogEntry.withdrawFillerDeclared w2 f2].foldl processLog s)
      (jsNumber w2) = some (jsNumber f2) := by
  have hkey : jsNumber w1 ≠ jsNumber w2 := by
    rw [jsNumber_small h1, jsNumber_small h2]
    exact hne
  refine ⟨foldl_processLog_lookup L s k, hkey, ?_, ?_⟩
  · simp only [List.foldl_cons, List.foldl_nil, processLog, upsert]
    rw [if_neg hkey]
    simp
  · simp only [List.foldl_cons, List.foldl_nil, processLog, upsert]
    simp

/-- Witness for C8 with the two assignments `5 ↦ 7` and `6 ↦ 8` processed
after `demoLogs`, looked up at key 0. -/
theorem filler_map_semantics_witness :
    (5 : ℕ) < 2 ^ 53 ∧ (6 : ℕ) < 2 ^ 53 ∧ (5 : ℕ) ≠ 6 ∧
    (((demoLogs.foldl processLog emptySinks).withdrawFillerLogs 0 =
      match lastFillerSpec 0 demoLogs with
      | some v => some v
      | none => emptySinks.withdrawFillerLogs 0) ∧
    jsNumber 5 ≠ jsNumber 6 ∧
    Sinks.withdrawFillerLogs
      ([LogEntry.withdrawFillerDeclared 5 7,
        LogEntry.withdrawFillerDeclared 6 8].foldl processLog emptySinks)
      (jsNumber 5) = some (jsNumber 7) ∧
    Sinks.withdrawFillerLogs
      ([LogEntry.withdrawFillerDeclared 5 7,
        LogEntry.withdrawFillerDeclared 6 8].foldl processLog emptySinks)
      (jsNumber 6) = some (jsNumber 8)) :=
  ⟨by norm_num, by norm_num, by norm_num,
    filler_map_semantics emptySinks demoLogs 0 5 7 6 8 (by norm_num)
      (by norm_num) (by norm_num)⟩

/-- Counterexample to claim C8 as stated: the distinct 256-bit
`withdrawId`s `2 ^ 53` and `2 ^ 53 + 1` convert to the same `Number` key,
so after processing the two events `(2 ^ 53) ↦ 7` and `(2 ^ 53 + 1) ↦ 8`
both ids are stored under the single shared key, which holds 8 — the
first event's value is overwritten even though the ids are distinct. -/
theorem filler_key_collision :
    (2 ^ 53 : ℕ) ≠ 2 ^ 53 + 1 ∧
    (2 ^ 53 + 1 : ℕ) < 2 ^ 256 ∧
    jsNumber (2 ^ 53) = jsNumber (2 ^ 53 + 1) ∧
    Sinks.withdrawFillerLogs
      ([LogEntry.withdrawFillerDeclared (2 ^ 53) 7,
        LogEntry.withdrawFillerDeclared (2 ^ 53 + 1) 8].foldl processLog
        emptySinks) (jsNumber (2 ^ 53)) = some 8 ∧
    Sinks.withdrawFillerLogs
      ([LogEntry.withdrawFillerDeclared (2 ^ 53) 7,
        LogEntry.withdrawFillerDeclared (2 ^ 53 + 1) 8].foldl processLog
        emptySinks) (jsNumber (2 ^ 53 + 1)) = some 8 := by
  have hcol : jsNumber (2 ^ 53) = jsNumber (2 ^ 53 + 1) := by
    rw [jsNumber_two_pow_53, jsNumber_two_pow_53_add_one]
  have h8 : jsNumber 8 = 8 := jsNumber_small (by norm_num)
  refine ⟨by norm_num, by norm_num, hcol, ?_, ?_⟩
  · simp only [List.foldl_cons, List.foldl_nil, processLog, upsert]
    rw [if_pos hcol]
    simp [h8]
  · simp only [List.foldl_cons, List.foldl_nil, processLog, upsert]
    simp [h8]

/-! ## Append-only behaviour of a scan (claim C9) -/

theorem applyFillers_preserves (ps : List (ℕ × ℕ)) (m : ℕ → Option ℕ)
    (k v : ℕ) (h : m k = some v) : ∃ v2, applyFillers ps m k = some v2 := by
  induction ps generalizing m v with
  | nil => exact ⟨v, h⟩
  | cons p ps ih =>
      by_cases hk : k = jsNumber p.1
      · exact ih (upsert m (jsNumber p.1) (jsNumber p.2)) (jsNumber p.2)
          (by simp [upsert, hk])
      · exact ih (upsert m (jsNumber p.1) (jsNumber p.2)) v
          (by simp [upsert, hk, h])

theorem applyWindow_extends (logsAt : ℕ → ℕ → Except Unit (List LogEntry))
    (s : Sinks) (f t : ℕ) :
    (∃ ds, (applyWindow logsAt s f t).depositLogs = s.depositLogs ++ ds) ∧
    (∃ wl, (applyWindow logsAt s f t).withdrawLogs = s.withdrawLogs ++ wl) ∧
    (∀ k v, s.withdrawFillerLogs k = some v →
      ∃ v2, (applyWindow logsAt s f t).withdrawFillerLogs k = some v2) := by
  unfold applyWindow
  cases logsAt f t with
  | ok L =>
      refine ⟨⟨depositsOf L, foldl_processLog_deposits L s⟩,
        ⟨withdrawalsOf L, foldl_processLog_withdrawals L s⟩, ?_⟩
      intro k v h
      rw [foldl_processLog_fillers]
      exact applyFillers_preserves (fillersOf L) s.withdrawFillerLogs k v h
  | error e =>
      exact ⟨⟨[], by simp⟩, ⟨[], by simp⟩, fun k v h => ⟨v, h⟩⟩

theorem foldlWindows_extends (ws : List (ℕ × ℕ))
    (logsAt : ℕ → ℕ → Except Unit (List LogEntry)) (s0 : Sinks) :
    (∃ ds, (ws.foldl (fun s w => applyWindow logsAt s w.1 w.2) s0).depositLogs =
      s0.depositLogs ++ ds) ∧
    (∃ wl, (ws.foldl (fun s w => applyWindow logsAt s w.1 w.2) s0).withdrawLogs =
      s0.withdrawLogs ++ wl) ∧
    (∀ k v, s0.withdrawFillerLogs k = some v →
      ∃ v2, (ws.foldl (fun s w => applyWindow logsAt s w.1 w.2)
        s0).withdrawFillerLogs k = some v2) := by
  induction ws generalizing s0 with
  | nil => exact ⟨⟨[], by simp⟩, ⟨[], by simp⟩, fun k v h => ⟨v, h⟩⟩
  | cons w ws ih =>
      obtain ⟨⟨d1, hd1⟩, ⟨w1, hw1⟩, hm1⟩ := applyWindow_extends logsAt s0 w.1 w.2
      obtain ⟨⟨d2, hd2⟩, ⟨w2, hw2⟩, hm2⟩ := ih (applyWindow logsAt s0 w.1 w.2)
      refine ⟨⟨d1 ++ d2, ?_⟩, ⟨w1 ++ w2, ?_⟩, ?_⟩
      · simp only [List.foldl_cons, hd2, hd1, List.append_assoc]
      · simp only [List.foldl_cons, hw2, hw1, List.append_assoc]
      · intro k v h
        obtain ⟨v1, hv1⟩ := hm1 k v h
        obtain ⟨v2, hv2⟩ := hm2 k v1 hv1
        exact ⟨v2, by simpa using hv2⟩

/-- Claim C9 (amended): a fetch pass never clears the collections: the two
list collections after any scan are the prior lists with new entries
appended (so every prior list entry keeps its position and contents, and
repeated saves accumulate duplicates), and every key present in the filler
mapping before the scan is still present afterwards. However, the VALUE
stored under a filler key can be overwritten by a later event with the
same key (see `scan_overwrites_filler_value`), so the original claim's
unchanged-contents part fails for the filler mapping. -/
theorem scan_appends_only (heightResult : Except Unit ℕ)
    (logsAt : ℕ → ℕ → Except Unit (List LogEntry)) (s0 : Sinks) :
    (∃ ds, (fetchResources heightResult logsAt s0).sinks.depositLogs =
      s0.depositLogs ++ ds) ∧
    (∃ wl, (fetchResources heightResult logsAt s0).sinks.withdrawLogs =
      s0.withdrawLogs ++ wl) ∧
    (∀ k v, s0.withdrawFillerLogs k = some v →
      ∃ v2, (fetchResources heightResult logsAt s0).sinks.withdrawFillerLogs k =
        some v2) := by
  cases heightResult with
  | ok H =>
      rw [fetchResources_ok]
      exact foldlWindows_extends (windows H) logsAt s0
  | error e =>
      exact ⟨⟨[], by simp [fetchResources]⟩, ⟨[], by simp [fetchResources]⟩,
        fun k v h => ⟨v, by simpa [fetchResources] using h⟩⟩

/-- Counterexample to claim C9 as stated: with the prior filler assignment
`5 ↦ 1` in place, a scan over a one-window chain whose log query returns
`WithdrawFillerDeclared 5 2` leaves key 5 holding 2 — the entry `5 ↦ 1`
that was present before the scan does not survive with unchanged
contents. -/
theorem scan_overwrites_filler_value :
    sinksWithFiller.withdrawFillerLogs 5 = some 1 ∧
    Sinks.withdrawFillerLogs
      (fetchResources (Except.ok 0) overwriteQuery sinksWithFiller).sinks 5 =
      some 2 ∧
    (some 2 : Option ℕ) ≠ some 1 := by
  have h5 : jsNumber 5 = 5 := jsNumber_small (by norm_num)
  have h2 : jsNumber 2 = 2 := jsNumber_small (by norm_num)
  refine ⟨by simp [sinksWithFiller], ?_, by simp⟩
  rw [fetchResources_ok]
  have hw : windows 0 = [(0, 0)] := by simp [windows, windowsFrom]
  rw [hw]
  simp [applyWindow, overwriteQuery, processLog, upsert, h5, h2]

/-! ## reverseHex (claim C10) -/

theorem chunkPairs_flatten : ∀ s : List Char, (chunkPairs s).flatten = s
  | [] => by simp [chunkPairs]
  | [c] => by simp [chunkPairs]
  | a :: b :: rest => by
      simp [chunkPairs, chunkPairs_flatten rest]

theorem chunkPairs_length_two :
    ∀ s : List Char, s.length % 2 = 0 → ∀ c ∈ chunkPairs s, c.length = 2
  | [] => by simp [chunkPairs]
  | [c] => by
      intro h
      simp at h
  | a :: b :: rest => by
      intro h c hc
      simp only [chunkPairs, List.mem_cons] at hc
      rcases hc with rfl | hc
      · rfl
      · have hlen : rest.length % 2 = 0 := by
          simp [List.length_cons] at h
          omega
        exact chunkPairs_length_two rest hlen c hc

theorem chunkPairs_of_flatten (L : List (List Char))
    (h : ∀ c ∈ L, c.length = 2) : chunkPairs L.flatten = L := by
  induction L with
  | nil => simp [chunkPairs]
  | cons c L ih =>
      have hc : c.length = 2 := h c (List.mem_cons_self c L)
      cases c with
      | nil => simp at hc
      | cons a c' =>
          cases c' with
          | nil => simp at hc
          | cons b c'' =>
              cases c'' with
              | cons x y => simp at hc
              | nil =>
                  have hrest : ∀ d ∈ L, d.length = 2 := by
                    intro d hd
                    exact h d (List.mem_cons_of_mem _ hd)
                  simp only [List.flatten_cons, List.cons_append,
                    List.append_eq, List.nil_append, chunkPairs]
                  rw [ih hrest]

theorem hexDigit_x_false : hexDigit 'x' = false := by decide

theorem cleanedHex_eq_self (s : List Char)
    (h : ∀ c ∈ s, hexDigit c = true) : cleanedHex s = s := by
  unfold cleanedHex
  split
  · rename_i rest
    have hx := h 'x' (by simp)
    rw [hexDigit_x_false] at hx
    exact absurd hx (by simp)
  · rfl

theorem mem_reverseHex_chars (s : List Char) (hclean : cleanedHex s = s)
    (x : Char) (hx : x ∈ reverseHex s) : x ∈ s := by
  unfold reverseHex at hx
  rw [hclean] at hx
  rw [List.mem_flatten] at hx
  rcases hx with ⟨c, hc, hxc⟩
  rw [List.mem_reverse] at hc
  have hflat : x ∈ (chunkPairs s).flatten := List.mem_flatten.mpr ⟨c, hc, hxc⟩
  rwa [chunkPairs_flatten] at hflat

/-- Claim C10: `reverseHex` maps the empty string to the empty string;
for an even-length hex string `s` it removes a leading `0x` and reverses
the sequence of two-character byte pairs (the pair decomposition of the
result is the reversed pair decomposition of the unprefixed input); and
on prefix-free hex strings of even length it is an involution:
`reverseHex (reverseHex s) = s`. -/
theorem reverseHex_spec (s : List Char)
    (hhex : ∀ c ∈ s, hexDigit c = true) (heven : s.length % 2 = 0) :
    reverseHex [] = [] ∧
    reverseHex ('0' :: 'x' :: s) = (chunkPairs s).reverse.flatten ∧
    chunkPairs (reverseHex ('0' :: 'x' :: s)) = (chunkPairs s).reverse ∧
    reverseHex (reverseHex s) = s := by
  have hlen2 : ∀ c ∈ (chunkPairs s).reverse, c.length = 2 := by
    intro c hc
    rw [List.mem_reverse] at hc
    exact chunkPairs_length_two s heven c hc
  have hclean : cleanedHex s = s := cleanedHex_eq_self s hhex
  have hpre : reverseHex ('0' :: 'x' :: s) =
      (chunkPairs s).reverse.flatten := rfl
  have hrh : reverseHex s = (chunkPairs s).reverse.flatten := by
    unfold reverseHex
    rw [hclean]
  have hchunk_rh : chunkPairs (reverseHex s) = (chunkPairs s).reverse := by
    rw [hrh]
    exact chunkPairs_of_flatten _ hlen2
  refine ⟨rfl, hpre, ?_, ?_⟩
  · rw [hpre]
    exact chunkPairs_of_flatten _ hlen2
  · have hhex2 : ∀ c ∈ reverseHex s, hexDigit c = true := fun c hc =>
      hhex c (mem_reverseHex_chars s hclean c hc)
    have hclean2 : cleanedHex (reverseHex s) = reverseHex s :=
      cleanedHex_eq_self _ hhex2
    calc reverseHex (reverseHex s)
        = ((chunkPairs (cleanedHex (reverseHex s))).reverse).flatten := rfl
      _ = ((chunkPairs (reverseHex s)).reverse).flatten := by rw [hclean2]
      _ = (((chunkPairs s).reverse).reverse).flatten := by rw [hchunk_rh]
      _ = (chunkPairs s).flatten := by rw [List.reverse_reverse]
      _ = s := chunkPairs_flatten s

/-- Witness for C10 at the hex string `ab01`: all four characters are hex
digits, the length is even, and the theorem's conclusions hold for it. -/
theorem reverseHex_spec_witness :
    (∀ c ∈ ['a', 'b', '0', '1'], hexDigit c = true) ∧
    (['a', 'b', '0', '1'] : List Char).length % 2 = 0 ∧
    (reverseHex [] = [] ∧
    reverseHex ('0' :: 'x' :: ['a', 'b', '0', '1']) =
      (chunkPairs ['a', 'b', '0', '1']).reverse.flatten ∧
    chunkPairs (reverseHex ('0' :: 'x' :: ['a', 'b', '0', '1'])) =
      (chunkPairs ['a', 'b', '0', '1']).reverse ∧
    reverseHex (reverseHex ['a', 'b', '0', '1']) = ['a', 'b', '0', '1']) :=
  ⟨by decide, by decide, reverseHex_spec ['a', 'b', '0', '1'] (by decide)
    (by decide)⟩
